import Mathlib

/- Verification of the behavioural contract of `zotero_ai_tagger.py`.

Python strings are modelled as lists of characters (`PyStr`) so that the
string operations the program relies on (`str.split`, `str.strip`,
`" ".join`) can be defined by structural recursion and reasoned about
directly.  External effects (HTTP fetches, the PDF library, the
language-model API, the catalog API) enter the model as explicit oracle
arguments of type `Except PyErr _`: an `Except.error` value stands for any
exception raised by the corresponding Python call. -/

abbrev PyStr := List Char

abbrev Tag := PyStr

abbrev PyErr := String

/-- Model of Python `str.split(sep)` for a one-character separator given as a
predicate: split at every character satisfying `p`, keeping empty pieces,
so that, e.g., splitting `"a\nb\n"` at newlines gives `["a", "b", ""]` and
splitting the empty string gives `[""]`. -/
def splitP (p : Char → Bool) : PyStr → List PyStr
  | [] => [[]]
  | c :: cs =>
    if p c then [] :: splitP p cs
    else
      match splitP p cs with
      | [] => [[c]]
      | w :: ws => (c :: w) :: ws

/-- Model of Python `str.strip()`: drop leading and trailing whitespace. -/
def pyStrip (s : PyStr) : PyStr :=
  ((s.dropWhile Char.isWhitespace).reverse.dropWhile Char.isWhitespace).reverse

/-- Model of Python `str.split()` with no separator: the whitespace-separated
tokens of the string, in order, with empty pieces discarded. -/
def pySplitWs (s : PyStr) : List PyStr :=
  (splitP (fun c => c.isWhitespace) s).filter (fun w => w ≠ [])

/-- The truncation step shared by `extract_text_from_pdf` (source lines
100-102) and `extract_text_from_webpage` (lines 142-144):
`words = text.split()` followed by `" ".join(words[:2000])`. -/
def truncateWords (s : PyStr) : PyStr :=
  List.intercalate [' '] ((pySplitWs s).take 2000)

theorem splitP_ne_nil (p : Char → Bool) (s : PyStr) : splitP p s ≠ [] := by
  induction s with
  | nil => simp [splitP]
  | cons c cs ih =>
    by_cases hc : p c
    · simp [splitP, hc]
    · simp only [splitP, hc, if_neg, Bool.false_eq_true, ite_false]
      cases h : splitP p cs with
      | nil => simp
      | cons w ws => simp

theorem splitP_sep_cons (p : Char → Bool) (c : Char) (s : PyStr) (hc : p c = true) :
    splitP p (c :: s) = [] :: splitP p s := by
  simp [splitP, hc]

theorem mem_splitP_not (p : Char → Bool) (s : PyStr) :
    ∀ w ∈ splitP p s, ∀ c ∈ w, p c = false := by
  induction s with
  | nil =>
    intro w hw c hc
    simp [splitP] at hw
    subst hw
    simp at hc
  | cons a as ih =>
    intro w hw c hc
    by_cases ha : p a = true
    · rw [splitP_sep_cons p a as ha] at hw
      rcases List.mem_cons.mp hw with hw | hw
      · subst hw; simp at hc
      · exact ih w hw c hc
    · have ha' : p a = false := by simpa using ha
      simp only [splitP, ha', Bool.false_eq_true, if_false] at hw
      cases h : splitP p as with
      | nil => exact absurd h (splitP_ne_nil p as)
      | cons v vs =>
        rw [h] at hw
        rcases List.mem_cons.mp hw with hw | hw
        · subst hw
          rcases List.mem_cons.mp hc with hc | hc
          · subst hc; exact ha'
          · exact ih v (h ▸ List.mem_cons_self v vs) c hc
        · exact ih w (h ▸ List.mem_cons_of_mem v hw) c hc

theorem splitP_append_word (p : Char → Bool) (w : PyStr)
    (hw : ∀ c ∈ w, p c = false) (s : PyStr) (h : PyStr) (t : List PyStr)
    (hs : splitP p s = h :: t) : splitP p (w ++ s) = (w ++ h) :: t := by
  induction w with
  | nil => simpa using hs
  | cons a as ih =>
    have ha : p a = false := hw a (List.mem_cons_self a as)
    have has : ∀ c ∈ as, p c = false := fun c hc => hw c (List.mem_cons_of_mem a hc)
    have ih' := ih has
    simp only [List.cons_append, splitP, ha, Bool.false_eq_true, if_false,
      List.append_eq, ih']

theorem splitP_word (p : Char → Bool) (w : PyStr) (hw : ∀ c ∈ w, p c = false) :
    splitP p w = [w] := by
  have := splitP_append_word p w hw [] [] [] (by simp [splitP])
  simpa using this

theorem splitP_join_terminated (p : Char → Bool) (sep : Char) (hsep : p sep = true)
    (l : List PyStr) (hl : ∀ w ∈ l, ∀ c ∈ w, p c = false) :
    splitP p ((l.map (fun w => w ++ [sep])).flatten) = l ++ [[]] := by
  induction l with
  | nil => simp [splitP]
  | cons w ws ih =>
    have hw : ∀ c ∈ w, p c = false := hl w (List.mem_cons_self w ws)
    have hws : ∀ v ∈ ws, ∀ c ∈ v, p c = false :=
      fun v hv => hl v (List.mem_cons_of_mem w hv)
    have ihs := ih hws
    have hsep' : splitP p (sep :: (ws.map (fun v => v ++ [sep])).flatten)
        = [] :: (ws ++ [[]]) := by
      rw [splitP_sep_cons p sep _ hsep, ihs]
    calc splitP p (((w :: ws).map (fun v => v ++ [sep])).flatten)
        = splitP p (w ++ (sep :: (ws.map (fun v => v ++ [sep])).flatten)) := by
          simp
      _ = (w ++ []) :: (ws ++ [[]]) := splitP_append_word p w hw _ _ _ hsep'
      _ = (w :: ws) ++ [[]] := by simp

theorem intercalate_cons_cons (s a b : PyStr) (t : List PyStr) :
    List.intercalate s (a :: b :: t) = a ++ s ++ List.intercalate s (b :: t) := by
  simp [List.intercalate, List.intersperse]

theorem splitP_intercalate_words (p : Char → Bool) (sep : Char) (hsep : p sep = true)
    (ws : List PyStr) (hne : ws ≠ [])
    (hws : ∀ w ∈ ws, ∀ c ∈ w, p c = false) :
    splitP p (List.intercalate [sep] ws) = ws := by
  induction ws with
  | nil => exact absurd rfl hne
  | cons w vs ih =>
    cases vs with
    | nil =>
      have hone : List.intercalate [sep] [w] = w := by
        simp [List.intercalate, List.intersperse]
      rw [hone]
      exact splitP_word p w (hws w (List.mem_cons_self w []))
    | cons v vt =>
      have hw : ∀ c ∈ w, p c = false := hws w (List.mem_cons_self w _)
      have hvs : ∀ u ∈ v :: vt, ∀ c ∈ u, p c = false :=
        fun u hu => hws u (List.mem_cons_of_mem w hu)
      have ih' := ih (by simp) hvs
      rw [intercalate_cons_cons]
      have step : splitP p (sep :: List.intercalate [sep] (v :: vt))
          = [] :: splitP p (List.intercalate [sep] (v :: vt)) :=
        splitP_sep_cons p sep _ hsep
      rw [ih'] at step
      have : splitP p (w ++ (sep :: List.intercalate [sep] (v :: vt)))
          = (w ++ []) :: (v :: vt) := splitP_append_word p w hw _ _ _ step
      simpa using this

theorem pySplitWs_words (s : PyStr) :
    ∀ w ∈ pySplitWs s, w ≠ [] ∧ ∀ c ∈ w, c.isWhitespace = false := by
  intro w hw
  have hmem : w ∈ splitP (fun c => c.isWhitespace) s := (List.mem_filter.mp hw).1
  have hne : w ≠ [] := by
    have := (List.mem_filter.mp hw).2
    simpa using this
  exact ⟨hne, mem_splitP_not _ s w hmem⟩

theorem pySplitWs_intercalate (ws : List PyStr)
    (h : ∀ w ∈ ws, w ≠ [] ∧ ∀ c ∈ w, c.isWhitespace = false) :
    pySplitWs (List.intercalate [' '] ws) = ws := by
  cases hws : ws with
  | nil => simp [pySplitWs, splitP, List.intercalate]
  | cons w vs =>
    subst hws
    have hsplit : splitP (fun c => c.isWhitespace) (List.intercalate [' '] (w :: vs))
        = w :: vs := by
      refine splitP_intercalate_words _ ' ' (by simp) (w :: vs) (by simp) ?_
      intro u hu
      exact (h u hu).2
    unfold pySplitWs
    rw [hsplit]
    refine List.filter_eq_self.mpr ?_
    intro u hu
    have := (h u hu).1
    simpa using this

theorem pySplitWs_truncateWords (s : PyStr) :
    pySplitWs (truncateWords s) = (pySplitWs s).take 2000 := by
  unfold truncateWords
  refine pySplitWs_intercalate _ ?_
  intro w hw
  exact pySplitWs_words s w (List.take_subset 2000 _ hw)

theorem dropWhile_first_false (p : Char → Bool) (l : PyStr) (c : Char) (t : PyStr)
    (h : l.dropWhile p = c :: t) : p c = false := by
  induction l with
  | nil => simp [List.dropWhile] at h
  | cons a as ih =>
    rw [List.dropWhile_cons] at h
    by_cases ha : p a = true
    · exact ih (by simpa [ha] using h)
    · have ha' : p a = false := by simpa using ha
      rw [ha'] at h
      simp only [Bool.false_eq_true, if_false, List.cons.injEq] at h
      rw [← h.1]
      exact ha'

theorem dropWhile_eq_self_of_first (p : Char → Bool) (l : PyStr)
    (h : ∀ c t, l = c :: t → p c = false) : l.dropWhile p = l := by
  cases l with
  | nil => simp
  | cons a as =>
    rw [List.dropWhile_cons, h a as rfl]
    simp

theorem dropWhile_exists_pre (p : Char → Bool) (l : PyStr) :
    ∃ pre, l = pre ++ l.dropWhile p := by
  induction l with
  | nil => exact ⟨[], rfl⟩
  | cons a as ih =>
    rw [List.dropWhile_cons]
    by_cases ha : p a = true
    · obtain ⟨pre, hpre⟩ := ih
      exact ⟨a :: pre, by simpa [ha] using congrArg (a :: ·) hpre⟩
    · have ha' : p a = false := by simpa using ha
      exact ⟨[], by simp [ha']⟩

theorem mem_dropWhile_sub (p : Char → Bool) (l : PyStr) (c : Char)
    (h : c ∈ l.dropWhile p) : c ∈ l := by
  obtain ⟨pre, hpre⟩ := dropWhile_exists_pre p l
  rw [hpre]
  exact List.mem_append_right pre h

theorem mem_pyStrip_sub (s : PyStr) (c : Char) (h : c ∈ pyStrip s) : c ∈ s := by
  unfold pyStrip at h
  rw [List.mem_reverse] at h
  have h1 := mem_dropWhile_sub _ _ _ h
  rw [List.mem_reverse] at h1
  exact mem_dropWhile_sub _ _ _ h1

theorem pyStrip_head_not_ws (s : PyStr) (c : Char) (t : PyStr)
    (h : pyStrip s = c :: t) : c.isWhitespace = false := by
  obtain ⟨pre, hpre⟩ :=
    dropWhile_exists_pre Char.isWhitespace (s.dropWhile Char.isWhitespace).reverse
  have hd1 : s.dropWhile Char.isWhitespace = (pyStrip s) ++ pre.reverse := by
    unfold pyStrip
    calc s.dropWhile Char.isWhitespace
        = (s.dropWhile Char.isWhitespace).reverse.reverse := by rw [List.reverse_reverse]
      _ = (pre ++ ((s.dropWhile Char.isWhitespace).reverse.dropWhile
            Char.isWhitespace)).reverse := by rw [← hpre]
      _ = _ := by rw [List.reverse_append]
  rw [h] at hd1
  exact dropWhile_first_false Char.isWhitespace s c _ hd1

theorem pyStrip_revhead_not_ws (s : PyStr) (c : Char) (t : PyStr)
    (h : (pyStrip s).reverse = c :: t) : c.isWhitespace = false := by
  unfold pyStrip at h
  rw [List.reverse_reverse] at h
  exact dropWhile_first_false Char.isWhitespace _ c t h

theorem pyStrip_of_clean (l : PyStr)
    (h1 : ∀ c t, l = c :: t → c.isWhitespace = false)
    (h2 : ∀ c t, l.reverse = c :: t → c.isWhitespace = false) :
    pyStrip l = l := by
  unfold pyStrip
  rw [dropWhile_eq_self_of_first _ _ h1, dropWhile_eq_self_of_first _ _ h2,
    List.reverse_reverse]

theorem pyStrip_idem (s : PyStr) : pyStrip (pyStrip s) = pyStrip s := by
  refine pyStrip_of_clean _ ?_ ?_
  · exact fun c t h => pyStrip_head_not_ws s c t h
  · exact fun c t h => pyStrip_revhead_not_ws s c t h

/-- A tag string as it can occur in the vocabulary during a run: non-empty,
free of newlines, and already stripped of leading/trailing whitespace. -/
def WfTag (t : Tag) : Prop := t ≠ [] ∧ '\n' ∉ t ∧ pyStrip t = t

instance (t : Tag) : Decidable (WfTag t) := by
  unfold WfTag
  infer_instance

/-- The response-parsing step of `get_claude_suggestions` (source line 232):
`[tag.strip() for tag in response_text.split('\n') if tag.strip()]`. -/
def parseSuggestedTags (text : PyStr) : List Tag :=
  ((splitP (fun c => c == '\n') text).map pyStrip).filter (fun t => t ≠ [])

theorem parseSuggestedTags_wf (text : PyStr) :
    ∀ t ∈ parseSuggestedTags text, WfTag t := by
  intro t ht
  unfold parseSuggestedTags at ht
  have hmem := (List.mem_filter.mp ht).1
  have hne : t ≠ [] := by
    have := (List.mem_filter.mp ht).2
    simpa using this
  obtain ⟨w, hw, hwt⟩ := List.mem_map.mp hmem
  refine ⟨hne, ?_, ?_⟩
  · intro hnl
    have hcw : '\n' ∈ w := mem_pyStrip_sub w '\n' (hwt ▸ hnl)
    have := mem_splitP_not _ text w hw '\n' hcw
    simp at this
  · rw [← hwt]
    exact pyStrip_idem w

/-- Sorted list of the vocabulary, modelling Python `sorted(...)` on a set of
strings (lexicographic order on the characters). -/
def sortedTags (V : Finset Tag) : List Tag := V.sort (· ≤ ·)

/-- Model of `save_existing_tags` (source lines 72-78): the tags-file content
written when a file is configured - each tag of the sorted vocabulary on its
own line, i.e. followed by a newline. -/
def save_existing_tags (V : Finset Tag) : PyStr :=
  ((sortedTags V).map (fun t => t ++ ['\n'])).flatten

/-- Model of `load_existing_tags` (source lines 62-70): the vocabulary read
back from the tags file - every line stripped, blank lines dropped; a missing
or unconfigured file yields the empty set. -/
def load_existing_tags (content : Option PyStr) : Finset Tag :=
  match content with
  | none => ∅
  | some s =>
    (((splitP (fun c => c == '\n') s).map pyStrip).filter (fun t => t ≠ [])).toFinset

theorem save_existing_tags_lines (V : Finset Tag) (hV : ∀ t ∈ V, WfTag t) :
    splitP (fun c => c == '\n') (save_existing_tags V) = sortedTags V ++ [[]] := by
  have hmemV : ∀ t ∈ sortedTags V, WfTag t := by
    intro t ht
    exact hV t ((Finset.mem_sort _).mp ht)
  unfold save_existing_tags
  refine splitP_join_terminated _ '\n' (by simp) _ ?_
  intro w hw c hc
  have hnl : '\n' ∉ w := (hmemV w hw).2.1
  simp only [beq_eq_false_iff_ne, ne_eq]
  intro hce
  exact hnl (hce ▸ hc)

theorem load_save_existing_tags (V : Finset Tag) (hV : ∀ t ∈ V, WfTag t) :
    load_existing_tags (some (save_existing_tags V)) = V := by
  have hmemV : ∀ t ∈ sortedTags V, WfTag t := by
    intro t ht
    exact hV t ((Finset.mem_sort _).mp ht)
  have hsplit := save_existing_tags_lines V hV
  simp only [load_existing_tags]
  rw [hsplit, List.map_append]
  have hmap : (sortedTags V).map pyStrip = sortedTags V := by
    have hcongr : (sortedTags V).map pyStrip = (sortedTags V).map id :=
      List.map_congr_left (fun t ht => (hmemV t ht).2.2)
    simpa using hcongr
  have hstrip_nil : pyStrip ([] : PyStr) = [] := rfl
  rw [hmap]
  have hfilter : ((sortedTags V ++ ([] : PyStr) :: []).map id).filter
      (fun t => t ≠ []) = sortedTags V := by
    simp only [List.map_id]
    rw [List.filter_append]
    have h1 : (sortedTags V).filter (fun t => t ≠ []) = sortedTags V := by
      refine List.filter_eq_self.mpr ?_
      intro t ht
      have := (hmemV t ht).1
      simpa using this
    have h2 : (([] : PyStr) :: []).filter (fun t : PyStr => t ≠ []) = [] := by
      simp
    rw [h1, h2, List.append_nil]
  simp only [List.map_id] at hfilter
  simp only [List.map_cons, hstrip_nil, List.map_nil]
  rw [hfilter]
  exact Finset.sort_toFinset _ V

/-- The `ProcessingOptions` dataclass (source lines 16-21). -/
structure ProcessingOptions where
  url_fallback : Bool
  url_always : Bool
  parse_pdf : Bool
  tags_file : Option String

/-- Model of `extract_text_from_pdf` (source lines 80-106).  The download
and the PyPDF2 parse are represented by the oracle `download`:
`Except.error` stands for any network or parse exception, `Except.ok pages`
for a parsed document given as the list of its pages' extracted texts. -/
def extract_text_from_pdf (opts : ProcessingOptions)
    (download : Except PyErr (List PyStr)) : Option PyStr :=
  if !opts.parse_pdf then none
  else
    match download with
    | .error _ => none
    | .ok pages =>
      some (truncateWords (((pages.take 5).map (fun t => t ++ ['\n'])).flatten))

/-- Model of `extract_text_from_webpage` (source lines 108-148).  The fetch
and the BeautifulSoup boilerplate-stripping and content selection are
represented by the oracle `fetch`; its `Except.ok` value is the extracted
main-content text before truncation.  The second component counts the
network requests the call performed, so that the policy short-circuit of
lines 114-116 is observable. -/
def extract_text_from_webpage (opts : ProcessingOptions) (has_pdf : Bool)
    (fetch : Except PyErr PyStr) : Option PyStr × Nat :=
  if !(opts.url_always || (opts.url_fallback && !has_pdf)) then (none, 0)
  else
    match fetch with
    | .error _ => (none, 1)
    | .ok content => (some (truncateWords content), 1)

/-- The normalized per-item record built by `get_document_metadata`
(source lines 150-174). -/
structure DocMetadata where
  title : PyStr
  abstract : PyStr
  key : PyStr
  item_type : PyStr
  existing_tags : List Tag
  url : PyStr
  pdf_attachment : Option PyStr

/-- The title entry of `content_parts` (source lines 182-183): present when
the title is non-empty (Python truthiness). -/
def titlePart (md : DocMetadata) : List PyStr :=
  if md.title = [] then [] else ["Title: ".toList ++ md.title]

/-- The abstract entry of `content_parts` (source lines 185-186). -/
def abstractPart (md : DocMetadata) : List PyStr :=
  if md.abstract = [] then [] else ["Abstract: ".toList ++ md.abstract]

/-- The webpage entry of `content_parts` (source lines 191-194): present
when the item has a URL and the webpage extraction returned non-empty
text. -/
def webpagePart (opts : ProcessingOptions) (md : DocMetadata)
    (webFetch : Except PyErr PyStr) : List PyStr :=
  if md.url = [] then []
  else
    match (extract_text_from_webpage opts md.pdf_attachment.isSome webFetch).1 with
    | none => []
    | some w => if w = [] then [] else ["Webpage content: ".toList ++ w]

/-- The PDF entry of `content_parts` (source lines 197-200): present when
the item has a PDF attachment, the parse-pdf flag is set, and the PDF
extraction returned non-empty text. -/
def pdfPart (opts : ProcessingOptions) (md : DocMetadata)
    (pdfDownload : Except PyErr (List PyStr)) : List PyStr :=
  if md.pdf_attachment.isSome && opts.parse_pdf then
    match extract_text_from_pdf opts pdfDownload with
    | none => []
    | some t => if t = [] then [] else ["PDF content: ".toList ++ t]
  else []

/-- The `content_parts` list built by `get_claude_suggestions` (source
lines 180-200): one entry per available content field, in the order title,
abstract, webpage excerpt, PDF excerpt; empty or failed extractions are
skipped (Python truthiness). -/
def contentParts (opts : ProcessingOptions) (md : DocMetadata)
    (webFetch : Except PyErr PyStr) (pdfDownload : Except PyErr (List PyStr)) :
    List PyStr :=
  titlePart md ++ abstractPart md ++ webpagePart opts md webFetch
    ++ pdfPart opts md pdfDownload

/-- Which of the two prompt templates `get_claude_suggestions` builds
(source lines 202-221).  `titleOnly` is the template that carries the extra
instruction to be conservative when working with the title only. -/
inductive PromptVariant
  | titleOnly
  | multi
  deriving DecidableEq

/-- The template choice of `get_claude_suggestions` (source line 203):
`if len(content_parts) == 1 and metadata['title']`. -/
def promptVariant (opts : ProcessingOptions) (md : DocMetadata)
    (webFetch : Except PyErr PyStr) (pdfDownload : Except PyErr (List PyStr)) :
    PromptVariant :=
  if (contentParts opts md webFetch pdfDownload).length = 1 ∧ md.title ≠ [] then
    .titleOnly
  else .multi

/-- The shape of the language-model response consumed by
`get_claude_suggestions`: the texts of the blocks in `response.content`. -/
structure ApiResponse where
  content : List PyStr

/-- The mutable tagger state the suggestion step touches: the in-memory
vocabulary `self.existing_tags` and the content of the tags file on disk
(`none` when the file does not exist). -/
structure TaggerState where
  existing_tags : Finset Tag
  fileContent : Option PyStr

set_option linter.unusedVariables false in
/-- Model of `get_claude_suggestions` (source lines 176-242), with the
language-model call represented by the oracle `resp`.  On the success path
(lines 232-238) the parsed tags are unioned into the vocabulary, the
vocabulary is saved to the tags file when one is configured, and the tags
are returned.  An exception anywhere in the `try` block - the API call
failing (`Except.error`), or `response.content[0]` raising on an empty
content list - is caught and yields the empty list, leaving the state
untouched (lines 240-242). -/
def get_claude_suggestions (opts : ProcessingOptions) (st : TaggerState)
    (md : DocMetadata) (webFetch : Except PyErr PyStr)
    (pdfDownload : Except PyErr (List PyStr)) (resp : Except PyErr ApiResponse) :
    List Tag × TaggerState :=
  match resp with
  | .error _ => ([], st)
  | .ok r =>
    match r.content with
    | [] => ([], st)
    | block :: _ =>
      let suggested := parseSuggestedTags block
      let vocab := st.existing_tags ∪ suggested.toFinset
      ( suggested,
        { existing_tags := vocab,
          fileContent :=
            if opts.tags_file.isSome then some (save_existing_tags vocab)
            else st.fileContent } )

/-- One per-item invocation of the suggestion step during a
`process_library` run: the item's metadata and the oracles for its webpage
fetch, PDF download and language-model call. -/
structure CallInput where
  md : DocMetadata
  webFetch : Except PyErr PyStr
  pdfDownload : Except PyErr (List PyStr)
  resp : Except PyErr ApiResponse

/-- The sequence of suggestion calls a `process_library` run performs
(source lines 260-290), with the tagger state threaded through and every
suggested tag collected.  Item updates (`update_item_tags`) never touch the
vocabulary or the tags file, so they do not contribute to this state. -/
def runSuggestions (opts : ProcessingOptions) :
    TaggerState → List CallInput → TaggerState × List Tag
  | st, [] => (st, [])
  | st, i :: rest =>
    let r := get_claude_suggestions opts st i.md i.webFetch i.pdfDownload i.resp
    let rr := runSuggestions opts r.2 rest
    (rr.1, r.1 ++ rr.2)

/-- One entry of an item's `data.tags` list.  Zotero tag entries are JSON
objects with a `tag` string and an optional numeric `type`; the entries the
program appends carry no `type` (`{'tag': tag}`, source line 253). -/
structure TagEntry where
  tag : Tag
  tagType : Option Nat := none
  deriving DecidableEq

/-- The `data` block of a catalog item; `otherFields` stands for all data
fields the program never touches. -/
structure ZItemData where
  key : PyStr
  itemType : PyStr
  title : PyStr
  abstractNote : PyStr
  url : PyStr
  tags : List TagEntry
  otherFields : List (PyStr × PyStr)
  deriving DecidableEq

/-- A catalog item as returned by `self.zot.item(item_key)`. -/
structure ZItem where
  key : PyStr
  version : Nat
  data : ZItemData
  deriving DecidableEq

/-- The tag-merging loop of `update_item_tags` (source lines 250-253):
append each suggested tag that is not already present, comparing against
the tag strings of the growing current list. -/
def addNewTags (current : List TagEntry) (new_tags : List Tag) : List TagEntry :=
  new_tags.foldl
    (fun cur tag =>
      if tag ∈ cur.map TagEntry.tag then cur else cur ++ [{ tag := tag }])
    current

/-- Model of `update_item_tags` (source lines 244-256): the item written
back by `self.zot.update_item(item)` - identical to the fetched item except
that the suggested tags missing from `data.tags` have been appended. -/
def update_item_tags (item : ZItem) (new_tags : List Tag) : ZItem :=
  { item with data := { item.data with tags := addNewTags item.data.tags new_tags } }

/-- The process environment read by `ZoteroTagger.__init__` (source lines
28-33): the result of `os.getenv` for each variable, `none` when unset. -/
structure Env where
  zotero_library_id : Option String
  zotero_library_type : Option String
  zotero_api_key : Option String
  anthropic_api_key : Option String

/-- Python falsiness of an optional environment value: `None` or `""`. -/
def isFalsy : Option String → Bool
  | none => true
  | some s => s == ""

/-- The `required_vars` dict of `ZoteroTagger.__init__` (source lines
28-33) in insertion order; `ZOTERO_LIBRARY_TYPE` defaults to `"group"`. -/
def required_vars (env : Env) : List (String × Option String) :=
  [("ZOTERO_LIBRARY_ID", env.zotero_library_id),
   ("ZOTERO_LIBRARY_TYPE", some (env.zotero_library_type.getD "group")),
   ("ZOTERO_API_KEY", env.zotero_api_key),
   ("ANTHROPIC_API_KEY", env.anthropic_api_key)]

/-- The `missing` list computed on source line 36. -/
def missingVars (env : Env) : List String :=
  ((required_vars env).filter (fun kv => isFalsy kv.2)).map (fun kv => kv.1)

/-- The credentials held by a successfully constructed tagger. -/
structure TaggerConfig where
  library_id : String
  library_type : String
  zotero_key : String
  anthropic_key : String
  options : ProcessingOptions

/-- Model of the validation step of `ZoteroTagger.__init__` (source lines
24-45): if any required value is falsy the constructor raises `ValueError`
naming all missing variables - before any catalog request is issued -
otherwise it stores the credentials. -/
def zoteroTaggerInit (env : Env) (opts : ProcessingOptions) :
    Except String TaggerConfig :=
  if missingVars env ≠ [] then
    .error ("Missing environment variables: "
      ++ String.intercalate ", " (missingVars env))
  else
    .ok { library_id := env.zotero_library_id.getD "",
          library_type := env.zotero_library_type.getD "group",
          zotero_key := env.zotero_api_key.getD "",
          anthropic_key := env.anthropic_api_key.getD "",
          options := opts }

/-- The names bound at module level of `zotero_ai_tagger.py` by its import
statements (source lines 1-14) and its top-level definitions (lines 16, 23
and 292). -/
def moduleBoundNames : List String :=
  ["os", "load_dotenv", "zotero", "Anthropic", "json", "List", "Dict", "Set",
   "Optional", "time", "Path", "requests", "PyPDF2", "BytesIO",
   "BeautifulSoup", "logging", "dataclass", "ProcessingOptions",
   "ZoteroTagger", "main"]

/-- The module-level names referenced by the body of `main`
(source lines 292-317). -/
def mainGlobalRefs : List String :=
  ["argparse", "Path", "ProcessingOptions", "ZoteroTagger"]

theorem addNewTags_cons (cur : List TagEntry) (t : Tag) (ts : List Tag) :
    addNewTags cur (t :: ts)
      = addNewTags
          (if t ∈ cur.map TagEntry.tag then cur else cur ++ [{ tag := t }]) ts := by
  simp [addNewTags]

theorem addNewTags_append (cur : List TagEntry) (new_tags : List Tag) :
    ∃ extra, addNewTags cur new_tags = cur ++ extra
      ∧ ∀ e ∈ extra, e.tag ∈ new_tags ∧ e.tagType = none := by
  induction new_tags generalizing cur with
  | nil => exact ⟨[], by simp [addNewTags], by simp⟩
  | cons t ts ih =>
    rw [addNewTags_cons]
    by_cases h : t ∈ cur.map TagEntry.tag
    · rw [if_pos h]
      obtain ⟨extra, he, hp⟩ := ih cur
      exact ⟨extra, he,
        fun e hee => ⟨List.mem_cons_of_mem t (hp e hee).1, (hp e hee).2⟩⟩
    · rw [if_neg h]
      obtain ⟨extra, he, hp⟩ := ih (cur ++ [{ tag := t }])
      refine ⟨{ tag := t } :: extra, ?_, ?_⟩
      · rw [he]; simp
      · intro e hee
        rcases List.mem_cons.mp hee with hee | hee
        · subst hee; exact ⟨List.mem_cons_self _ _, rfl⟩
        · exact ⟨List.mem_cons_of_mem t (hp e hee).1, (hp e hee).2⟩

theorem mem_tag_addNewTags_of_mem (cur : List TagEntry) (new_tags : List Tag)
    (t : Tag) (h : t ∈ cur.map TagEntry.tag) :
    t ∈ (addNewTags cur new_tags).map TagEntry.tag := by
  obtain ⟨extra, he, -⟩ := addNewTags_append cur new_tags
  rw [he, List.map_append]
  exact List.mem_append_left _ h

theorem mem_tag_addNewTags_of_new (cur : List TagEntry) (new_tags : List Tag) :
    ∀ t ∈ new_tags, t ∈ (addNewTags cur new_tags).map TagEntry.tag := by
  induction new_tags generalizing cur with
  | nil => intro t ht; simp at ht
  | cons a ts ih =>
    intro t ht
    rw [addNewTags_cons]
    rcases List.mem_cons.mp ht with ht | ht
    · subst ht
      by_cases h : t ∈ cur.map TagEntry.tag
      · rw [if_pos h]
        exact mem_tag_addNewTags_of_mem _ ts t h
      · rw [if_neg h]
        refine mem_tag_addNewTags_of_mem _ ts t ?_
        rw [List.map_append]
        simp
    · exact ih _ t ht

theorem addNewTags_eq_self (cur : List TagEntry) (new_tags : List Tag)
    (h : ∀ t ∈ new_tags, t ∈ cur.map TagEntry.tag) :
    addNewTags cur new_tags = cur := by
  induction new_tags with
  | nil => simp [addNewTags]
  | cons a ts ih =>
    rw [addNewTags_cons, if_pos (h a (List.mem_cons_self a ts))]
    exact ih (fun t ht => h t (List.mem_cons_of_mem a ht))

theorem addNewTags_idem (cur : List TagEntry) (new_tags : List Tag) :
    addNewTags (addNewTags cur new_tags) new_tags = addNewTags cur new_tags :=
  addNewTags_eq_self _ _ (mem_tag_addNewTags_of_new cur new_tags)

theorem get_claude_suggestions_vocab_sub (opts : ProcessingOptions)
    (st : TaggerState) (md : DocMetadata) (w : Except PyErr PyStr)
    (p : Except PyErr (List PyStr)) (r : Except PyErr ApiResponse) :
    st.existing_tags
      ⊆ (get_claude_suggestions opts st md w p r).2.existing_tags := by
  rcases r with e | ⟨⟨content⟩⟩
  · exact Finset.Subset.refl _
  · cases content with
    | nil => exact Finset.Subset.refl _
    | cons block rest =>
      show st.existing_tags ⊆ st.existing_tags ∪ (parseSuggestedTags block).toFinset
      exact Finset.subset_union_left

theorem get_claude_suggestions_mem_vocab (opts : ProcessingOptions)
    (st : TaggerState) (md : DocMetadata) (w : Except PyErr PyStr)
    (p : Except PyErr (List PyStr)) (r : Except PyErr ApiResponse) :
    ∀ t ∈ (get_claude_suggestions opts st md w p r).1,
      t ∈ (get_claude_suggestions opts st md w p r).2.existing_tags := by
  rcases r with e | ⟨⟨content⟩⟩
  · intro t ht
    simp [get_claude_suggestions] at ht
  · cases content with
    | nil =>
      intro t ht
      simp [get_claude_suggestions] at ht
    | cons block rest =>
      intro t ht
      have ht' : t ∈ parseSuggestedTags block := ht
      show t ∈ st.existing_tags ∪ (parseSuggestedTags block).toFinset
      exact Finset.mem_union_right _ (List.mem_toFinset.mpr ht')

theorem get_claude_suggestions_vocab_wf (opts : ProcessingOptions)
    (st : TaggerState) (md : DocMetadata) (w : Except PyErr PyStr)
    (p : Except PyErr (List PyStr)) (r : Except PyErr ApiResponse)
    (hwf : ∀ t ∈ st.existing_tags, WfTag t) :
    ∀ t ∈ (get_claude_suggestions opts st md w p r).2.existing_tags, WfTag t := by
  rcases r with e | ⟨⟨content⟩⟩
  · exact hwf
  · cases content with
    | nil => exact hwf
    | cons block rest =>
      intro t ht
      have ht' : t ∈ st.existing_tags ∪ (parseSuggestedTags block).toFinset := ht
      rcases Finset.mem_union.mp ht' with h | h
      · exact hwf t h
      · exact parseSuggestedTags_wf block t (List.mem_toFinset.mp h)

theorem get_claude_suggestions_file_after_success (opts : ProcessingOptions)
    (st : TaggerState) (md : DocMetadata) (w : Except PyErr PyStr)
    (p : Except PyErr (List PyStr)) (block : PyStr) (brest : List PyStr)
    (hc : opts.tags_file.isSome = true) :
    (get_claude_suggestions opts st md w p (.ok ⟨block :: brest⟩)).2.fileContent
      = some (save_existing_tags
          (get_claude_suggestions opts st md w p
            (.ok ⟨block :: brest⟩)).2.existing_tags) := by
  simp [get_claude_suggestions, hc]

theorem get_claude_suggestions_file_synced (opts : ProcessingOptions)
    (st : TaggerState) (md : DocMetadata) (w : Except PyErr PyStr)
    (p : Except PyErr (List PyStr)) (r : Except PyErr ApiResponse)
    (hc : opts.tags_file.isSome = true)
    (hs : st.fileContent = some (save_existing_tags st.existing_tags)) :
    (get_claude_suggestions opts st md w p r).2.fileContent
      = some (save_existing_tags
          (get_claude_suggestions opts st md w p r).2.existing_tags) := by
  rcases r with e | ⟨⟨content⟩⟩
  · exact hs
  · cases content with
    | nil => exact hs
    | cons block brest =>
      exact get_claude_suggestions_file_after_success opts st md w p block brest hc

theorem runSuggestions_vocab_mono (opts : ProcessingOptions)
    (inputs : List CallInput) :
    ∀ st, st.existing_tags ⊆ (runSuggestions opts st inputs).1.existing_tags := by
  induction inputs with
  | nil => intro st; exact Finset.Subset.refl _
  | cons i rest ih =>
    intro st
    exact Finset.Subset.trans
      (get_claude_suggestions_vocab_sub opts st i.md i.webFetch i.pdfDownload i.resp)
      (ih _)

theorem runSuggestions_vocab_wf (opts : ProcessingOptions)
    (inputs : List CallInput) :
    ∀ st, (∀ t ∈ st.existing_tags, WfTag t) →
      ∀ t ∈ (runSuggestions opts st inputs).1.existing_tags, WfTag t := by
  induction inputs with
  | nil => intro st h; exact h
  | cons i rest ih =>
    intro st h
    exact ih _
      (get_claude_suggestions_vocab_wf opts st i.md i.webFetch i.pdfDownload i.resp h)

theorem runSuggestions_file_synced (opts : ProcessingOptions)
    (inputs : List CallInput) (hc : opts.tags_file.isSome = true) :
    ∀ st, st.fileContent = some (save_existing_tags st.existing_tags) →
      (runSuggestions opts st inputs).1.fileContent
        = some (save_existing_tags
            (runSuggestions opts st inputs).1.existing_tags) := by
  induction inputs with
  | nil => intro st h; exact h
  | cons i rest ih =>
    intro st h
    exact ih _
      (get_claude_suggestions_file_synced opts st i.md i.webFetch i.pdfDownload
        i.resp hc h)

theorem runSuggestions_tags_mem_vocab (opts : ProcessingOptions)
    (inputs : List CallInput) :
    ∀ st, ∀ t ∈ (runSuggestions opts st inputs).2,
      t ∈ (runSuggestions opts st inputs).1.existing_tags := by
  induction inputs with
  | nil =>
    intro st t ht
    simp [runSuggestions] at ht
  | cons i rest ih =>
    intro st t ht
    have ht' : t ∈ (get_claude_suggestions opts st i.md i.webFetch i.pdfDownload
          i.resp).1
        ++ (runSuggestions opts
            (get_claude_suggestions opts st i.md i.webFetch i.pdfDownload
              i.resp).2 rest).2 := ht
    rcases List.mem_append.mp ht' with h | h
    · exact runSuggestions_vocab_mono opts rest _
        (get_claude_suggestions_mem_vocab opts st i.md i.webFetch i.pdfDownload
          i.resp t h)
    · exact ih _ t h

theorem runSuggestions_file_superset (opts : ProcessingOptions)
    (inputs : List CallInput) (hc : opts.tags_file.isSome = true) :
    ∀ st, (∀ t ∈ st.existing_tags, WfTag t) →
      ∀ t ∈ (runSuggestions opts st inputs).2,
        t ∈ load_existing_tags ((runSuggestions opts st inputs).1.fileContent) := by
  induction inputs with
  | nil =>
    intro st hwf t ht
    simp [runSuggestions] at ht
  | cons i rest ih =>
    intro st hwf t ht
    rcases i with ⟨md, w, p, r⟩
    rcases r with e | ⟨⟨content⟩⟩
    · exact ih st hwf t ht
    · cases content with
      | nil => exact ih st hwf t ht
      | cons block brest =>
        have hwf' : ∀ u ∈ (get_claude_suggestions opts st md w p
            (.ok ⟨block :: brest⟩)).2.existing_tags, WfTag u :=
          get_claude_suggestions_vocab_wf opts st md w p _ hwf
        have hsync' := get_claude_suggestions_file_after_success opts st md w p
          block brest hc
        have hfinal := runSuggestions_file_synced opts rest hc _ hsync'
        have hwfF := runSuggestions_vocab_wf opts rest _ hwf'
        have hmem := runSuggestions_tags_mem_vocab opts
          (⟨md, w, p, .ok ⟨block :: brest⟩⟩ :: rest) st t ht
        show t ∈ load_existing_tags
          ((runSuggestions opts (get_claude_suggestions opts st md w p
            (.ok ⟨block :: brest⟩)).2 rest).1.fileContent)
        rw [hfinal, load_save_existing_tags _ hwfF]
        exact hmem

/-- C1: after every successful `get_claude_suggestions` call, every tag in
the returned list is in the in-memory vocabulary; when a tags file is
configured, the file content has been rewritten with the updated vocabulary
before the call returns (the later item update never touches this state);
and over a whole run the persisted vocabulary file is a superset of every
tag ever suggested. -/
theorem get_claude_suggestions_vocab_invariant :
    (∀ opts st md webFetch pdfDownload resp,
      ∀ t ∈ (get_claude_suggestions opts st md webFetch pdfDownload resp).1,
        t ∈ (get_claude_suggestions opts st md webFetch pdfDownload
          resp).2.existing_tags)
    ∧ (∀ opts st md webFetch pdfDownload block brest,
        opts.tags_file.isSome = true →
        (get_claude_suggestions opts st md webFetch pdfDownload
            (.ok ⟨block :: brest⟩)).2.fileContent
          = some (save_existing_tags
              (get_claude_suggestions opts st md webFetch pdfDownload
                (.ok ⟨block :: brest⟩)).2.existing_tags))
    ∧ (∀ opts inputs st,
        (∀ t ∈ st.existing_tags, WfTag t) →
        opts.tags_file.isSome = true →
        ∀ t ∈ (runSuggestions opts st inputs).2,
          t ∈ load_existing_tags
            ((runSuggestions opts st inputs).1.fileContent)) :=
  ⟨fun opts st md w p r => get_claude_suggestions_mem_vocab opts st md w p r,
   fun opts st md w p block brest hc =>
     get_claude_suggestions_file_after_success opts st md w p block brest hc,
   fun opts inputs st hwf hc => runSuggestions_file_superset opts inputs hc st hwf⟩

/-- Witness for C1 at a concrete one-item run with a configured tags file. -/
theorem get_claude_suggestions_vocab_invariant_witness :
    "Alpha".toList ∈ load_existing_tags
      ((runSuggestions ⟨false, false, false, some "tags.txt"⟩
          ⟨∅, none⟩
          [⟨⟨"T".toList, [], [], [], [], [], none⟩, .error "", .error "",
            .ok ⟨["Alpha\nBeta".toList]⟩⟩]).1.fileContent) :=
  get_claude_suggestions_vocab_invariant.2.2
    ⟨false, false, false, some "tags.txt"⟩
    [⟨⟨"T".toList, [], [], [], [], [], none⟩, .error "", .error "",
      .ok ⟨["Alpha\nBeta".toList]⟩⟩]
    ⟨∅, none⟩
    (by decide)
    (by decide)
    "Alpha".toList
    (by decide)

/-- C2: `extract_text_from_webpage` performs a network fetch iff
`url_always` is set, or `url_fallback` is set and the item has no PDF;
otherwise it returns `none` immediately with no fetch - in particular with
`url_fallback=true`, `url_always=false` and a PDF attachment present. -/
theorem extract_text_from_webpage_policy (opts : ProcessingOptions)
    (has_pdf : Bool) (fetch : Except PyErr PyStr) :
    ((extract_text_from_webpage opts has_pdf fetch).2 = 1
      ↔ (opts.url_always = true ∨ (opts.url_fallback = true ∧ has_pdf = false)))
    ∧ ((extract_text_from_webpage opts has_pdf fetch).2 = 0
        → extract_text_from_webpage opts has_pdf fetch = (none, 0))
    ∧ (opts.url_fallback = true → opts.url_always = false → has_pdf = true
        → extract_text_from_webpage opts has_pdf fetch = (none, 0)) := by
  rcases opts with ⟨uf, ua, pp, tf⟩
  cases ua <;> cases uf <;> cases has_pdf <;> rcases fetch with e | c <;>
    simp [extract_text_from_webpage]

/-- Witness for C2: with URL-fallback set and a PDF attached, no fetch. -/
theorem extract_text_from_webpage_policy_witness :
    extract_text_from_webpage ⟨true, false, false, none⟩ true
        (.ok "body".toList)
      = (none, 0) :=
  (extract_text_from_webpage_policy ⟨true, false, false, none⟩ true
      (.ok "body".toList)).2.2 rfl rfl rfl

/-- C3: `update_item_tags` is idempotent - applying the same suggested-tag
list twice yields the same item as applying it once, because a suggested
tag equal (case-sensitive string equality) to a present tag is not
appended again. -/
theorem update_item_tags_idem (item : ZItem) (new_tags : List Tag) :
    update_item_tags (update_item_tags item new_tags) new_tags
      = update_item_tags item new_tags := by
  unfold update_item_tags
  simp [addNewTags_idem]

/-- C4: the body of `main` (source line 293) references the module-level
name `argparse`, but the module never binds it - the file has no
`import argparse` - while every other module-level name `main` uses is
bound; hence every invocation of the command-line interface raises
`NameError` before any flag is parsed or mapped. -/
theorem main_references_unbound_argparse :
    "argparse" ∈ mainGlobalRefs
    ∧ moduleBoundNames.contains "argparse" = false
    ∧ mainGlobalRefs.filter (fun n => !moduleBoundNames.contains n)
        = ["argparse"] := by
  decide

/-- C5: the membership of the `missing` list matches exactly the falsy
required environment values, and whenever the library id, catalog key or
language-model key is missing the constructor fails with the error message
naming all of them. -/
theorem zoteroTaggerInit_missing_env (env : Env) (opts : ProcessingOptions) :
    (∀ n, n ∈ missingVars env ↔
        ((n = "ZOTERO_LIBRARY_ID" ∧ isFalsy env.zotero_library_id = true)
         ∨ (n = "ZOTERO_LIBRARY_TYPE" ∧ env.zotero_library_type = some "")
         ∨ (n = "ZOTERO_API_KEY" ∧ isFalsy env.zotero_api_key = true)
         ∨ (n = "ANTHROPIC_API_KEY" ∧ isFalsy env.anthropic_api_key = true)))
    ∧ ((isFalsy env.zotero_library_id = true
          ∨ isFalsy env.zotero_api_key = true
          ∨ isFalsy env.anthropic_api_key = true)
        → zoteroTaggerInit env opts
            = .error ("Missing environment variables: "
                ++ String.intercalate ", " (missingVars env))) := by
  rcases env with ⟨id, ty, zk, ak⟩
  have hty : isFalsy (some (ty.getD "group")) = true ↔ ty = some "" := by
    cases ty with
    | none => decide
    | some s => simp [isFalsy]
  have hmem : ∀ n, n ∈ missingVars ⟨id, ty, zk, ak⟩ ↔
      ((n = "ZOTERO_LIBRARY_ID" ∧ isFalsy id = true)
       ∨ (n = "ZOTERO_LIBRARY_TYPE" ∧ ty = some "")
       ∨ (n = "ZOTERO_API_KEY" ∧ isFalsy zk = true)
       ∨ (n = "ANTHROPIC_API_KEY" ∧ isFalsy ak = true)) := by
    intro n
    rw [← hty]
    cases hb1 : isFalsy id <;> cases hb2 : isFalsy (some (ty.getD "group")) <;>
      cases hb3 : isFalsy zk <;> cases hb4 : isFalsy ak <;>
      simp [missingVars, required_vars, hb1, hb2, hb3, hb4]
  refine ⟨hmem, ?_⟩
  intro h
  have hne : missingVars ⟨id, ty, zk, ak⟩ ≠ [] := by
    rcases h with h | h | h
    · exact List.ne_nil_of_mem ((hmem "ZOTERO_LIBRARY_ID").mpr (Or.inl ⟨rfl, h⟩))
    · exact List.ne_nil_of_mem
        ((hmem "ZOTERO_API_KEY").mpr (Or.inr (Or.inr (Or.inl ⟨rfl, h⟩))))
    · exact List.ne_nil_of_mem
        ((hmem "ANTHROPIC_API_KEY").mpr (Or.inr (Or.inr (Or.inr ⟨rfl, h⟩))))
  simp [zoteroTaggerInit, hne]

/-- Witness for C5: only `ANTHROPIC_API_KEY` is missing. -/
theorem zoteroTaggerInit_missing_env_witness :
    zoteroTaggerInit ⟨some "12345", none, some "zot-key", none⟩
        ⟨false, false, false, none⟩
      = .error "Missing environment variables: ANTHROPIC_API_KEY" := by
  have h := (zoteroTaggerInit_missing_env ⟨some "12345", none, some "zot-key", none⟩
      ⟨false, false, false, none⟩).2 (Or.inr (Or.inr (by decide)))
  have hs : ("Missing environment variables: "
      ++ String.intercalate ", "
          (missingVars ⟨some "12345", none, some "zot-key", none⟩))
      = "Missing environment variables: ANTHROPIC_API_KEY" := by decide
  rw [h, hs]

/-- C6: every exception during the language-model call or while parsing its
response is caught and `get_claude_suggestions` returns the empty list with
the state unchanged; no exception escapes to the caller. -/
theorem get_claude_suggestions_swallows_errors (opts : ProcessingOptions)
    (st : TaggerState) (md : DocMetadata) (webFetch : Except PyErr PyStr)
    (pdfDownload : Except PyErr (List PyStr)) :
    (∀ e : PyErr,
      get_claude_suggestions opts st md webFetch pdfDownload (.error e)
        = ([], st))
    ∧ get_claude_suggestions opts st md webFetch pdfDownload (.ok ⟨[]⟩)
        = ([], st) :=
  ⟨fun _ => rfl, rfl⟩

/-- C7: a successful extraction returns exactly the first `min n 2000`
whitespace-separated tokens of the extracted text, in original order, for
both the webpage and the PDF extractor. -/
theorem extraction_truncates_to_2000_tokens :
    (∀ s : PyStr,
      pySplitWs (truncateWords s) = (pySplitWs s).take 2000
      ∧ (pySplitWs (truncateWords s)).length = min (pySplitWs s).length 2000)
    ∧ (∀ opts has_pdf content out,
        (extract_text_from_webpage opts has_pdf (.ok content)).1 = some out
        → out = truncateWords content)
    ∧ (∀ opts pages out,
        extract_text_from_pdf opts (.ok pages) = some out
        → out = truncateWords
            (((pages.take 5).map (fun t => t ++ ['\n'])).flatten)) := by
  refine ⟨fun s => ⟨pySplitWs_truncateWords s, ?_⟩, ?_, ?_⟩
  · rw [pySplitWs_truncateWords s, List.length_take, Nat.min_comm]
  · intro opts has_pdf content out h
    unfold extract_text_from_webpage at h
    split at h
    · simp at h
    · simp at h
      exact h.symm
  · intro opts pages out h
    unfold extract_text_from_pdf at h
    split at h
    · simp at h
    · have h' : some (truncateWords
          (((pages.take 5).map (fun t => t ++ ['\n'])).flatten)) = some out := h
      exact (Option.some.inj h').symm

/-- Witness for C7 on a concrete successful webpage extraction. -/
theorem extraction_truncates_to_2000_tokens_witness :
    "a b c".toList = truncateWords "a b c".toList :=
  extraction_truncates_to_2000_tokens.2.1 ⟨false, true, false, none⟩ false
    "a b c".toList "a b c".toList (by decide)

/-- C8: saving the vocabulary and reloading it yields the identical set;
the written file holds one tag per line in sorted order; a blank line is
ignored on read. -/
theorem save_load_round_trip (V : Finset Tag) (hV : ∀ t ∈ V, WfTag t) :
    load_existing_tags (some (save_existing_tags V)) = V
    ∧ splitP (fun c => c == '\n') (save_existing_tags V) = sortedTags V ++ [[]]
    ∧ List.Sorted (· ≤ ·) (sortedTags V)
    ∧ (sortedTags V).toFinset = V
    ∧ (∀ s, load_existing_tags (some ('\n' :: s))
        = load_existing_tags (some s)) := by
  refine ⟨load_save_existing_tags V hV, save_existing_tags_lines V hV,
    Finset.sort_sorted _ _, Finset.sort_toFinset _ _, ?_⟩
  intro s
  have h0 : pyStrip ([] : PyStr) = [] := rfl
  simp only [load_existing_tags]
  rw [splitP_sep_cons _ '\n' s (by simp), List.map_cons, h0]
  simp

/-- Witness for C8 at a concrete two-tag vocabulary. -/
theorem save_load_round_trip_witness :
    load_existing_tags
        (some (save_existing_tags
          ({"beta".toList, "alpha".toList} : Finset Tag)))
      = ({"beta".toList, "alpha".toList} : Finset Tag) :=
  (save_load_round_trip _ (by decide)).1

/-- C9: the title-only prompt variant (the one carrying the
conservative-tagging instruction) is chosen iff the title is the sole
available content field; whenever two or more content fields are available
the multi-field variant is chosen. -/
theorem promptVariant_titleOnly_iff (opts : ProcessingOptions)
    (md : DocMetadata) (webFetch : Except PyErr PyStr)
    (pdfDownload : Except PyErr (List PyStr)) :
    (promptVariant opts md webFetch pdfDownload = .titleOnly
      ↔ (md.title ≠ [] ∧ abstractPart md = []
         ∧ webpagePart opts md webFetch = []
         ∧ pdfPart opts md pdfDownload = []))
    ∧ (2 ≤ (contentParts opts md webFetch pdfDownload).length
        → promptVariant opts md webFetch pdfDownload = .multi) := by
  have hlen : (contentParts opts md webFetch pdfDownload).length
      = (titlePart md).length + ((abstractPart md).length
        + ((webpagePart opts md webFetch).length
          + (pdfPart opts md pdfDownload).length)) := by
    simp [contentParts]
  unfold promptVariant
  split_ifs with h
  · rcases h with ⟨h1, h2⟩
    have htl : (titlePart md).length = 1 := by simp [titlePart, h2]
    rw [hlen, htl] at h1
    refine ⟨⟨fun _ => ⟨h2, ?_, ?_, ?_⟩, fun _ => rfl⟩, ?_⟩
    · exact List.length_eq_zero.mp (by omega)
    · exact List.length_eq_zero.mp (by omega)
    · exact List.length_eq_zero.mp (by omega)
    · intro h2le
      rw [hlen, htl] at h2le
      exfalso
      omega
  · refine ⟨⟨fun hco => (nomatch hco), fun hr => ?_⟩,
      fun _ => rfl⟩
    exfalso
    apply h
    rcases hr with ⟨ht, ha, hw, hp⟩
    have htl : (titlePart md).length = 1 := by simp [titlePart, ht]
    refine ⟨?_, ht⟩
    rw [hlen, htl, ha, hw, hp]
    simp

/-- Witness for C9: a title-only item yields the title-only variant. -/
theorem promptVariant_titleOnly_iff_witness :
    promptVariant ⟨false, false, false, none⟩
        ⟨"T".toList, [], [], [], [], [], none⟩ (.error "") (.error "")
      = .titleOnly :=
  (promptVariant_titleOnly_iff _ _ _ _).1.mpr (by decide)

/-- C10: `update_item_tags` changes at most the `data.tags` field: every
other field of the written item equals the fetched one, the existing tag
entries are preserved in their original order, and the appended entries
all carry tags from the suggested list (and no `type` field). -/
theorem update_item_tags_frame (item : ZItem) (new_tags : List Tag) :
    (update_item_tags item new_tags).key = item.key
    ∧ (update_item_tags item new_tags).version = item.version
    ∧ (update_item_tags item new_tags).data.key = item.data.key
    ∧ (update_item_tags item new_tags).data.itemType = item.data.itemType
    ∧ (update_item_tags item new_tags).data.title = item.data.title
    ∧ (update_item_tags item new_tags).data.abstractNote = item.data.abstractNote
    ∧ (update_item_tags item new_tags).data.url = item.data.url
    ∧ (update_item_tags item new_tags).data.otherFields = item.data.otherFields
    ∧ ∃ extra,
        (update_item_tags item new_tags).data.tags = item.data.tags ++ extra
        ∧ ∀ e ∈ extra, e.tag ∈ new_tags ∧ e.tagType = none := by
  refine ⟨rfl, rfl, rfl, rfl, rfl, rfl, rfl, rfl, ?_⟩
  obtain ⟨extra, he, hp⟩ := addNewTags_append item.data.tags new_tags
  exact ⟨extra, he, hp⟩

/-- Witness for C10 at a concrete item. -/
theorem update_item_tags_frame_witness :
    (update_item_tags
        ⟨"K".toList, 7,
          ⟨"K".toList, "book".toList, "T".toList, "A".toList, "U".toList,
            [⟨"old".toList, some 1⟩], [("f".toList, "v".toList)]⟩⟩
        ["new".toList]).data.title = "T".toList :=
  (update_item_tags_frame _ _).2.2.2.2.1
